import Mathlib

/-!
Verification development for the YTD analog-year correlation pipeline
(`app.py`).  The analytics core is embedded shallowly:

* prices are exact rationals; the IEEE-754 special values that the
  pandas code can produce (NaN from 0/0, signed infinities from
  division of a nonzero price by a zero price) are modelled by an
  explicit value type `FP`, since the per-year validity filter tests
  `isnull` (that is, NaN-ness) of the computed returns;
* `cumulative_returns`, the per-year validity filter, the return
  matrix columns, the overlap/Pearson correlation step, the cutoff
  filter, the descending stable sort and the `top_n` truncation are
  each translated directly from the source;
* a Pearson coefficient rho = S_xy / sqrt(S_xx * S_yy) is represented
  exactly by the pair `(S_xy, S_xx * S_yy)` of rationals (`none` for
  the NaN result numpy yields when a variance vanishes); the order
  comparisons the code performs on the float rho are realised by
  `rhoGe` and `rhoLt`, which decide the corresponding real
  inequalities by sign analysis and cross multiplication of squares.
-/

set_option maxRecDepth 400000

namespace YtdCorr

/-- Fragment of IEEE double values reachable in the pipeline: finite
values (kept exact as rationals), the two infinities, and NaN. -/
inductive FP where
  | fin (q : ℚ)
  | pinf
  | ninf
  | nan
  deriving DecidableEq, Repr

/-- NaN test, the model of `pandas.isnull` on a computed return. -/
def FP.isNan : FP → Bool
  | .nan => true
  | _ => false

/-- Division of two finite values, with the IEEE outcomes for a zero
divisor: 0/0 is NaN, p/0 for nonzero p is a signed infinity. -/
def fpDiv (p q : ℚ) : FP :=
  if q = 0 then (if p = 0 then .nan else if 0 < p then .pinf else .ninf)
  else .fin (p / q)

/-- Subtracting the constant 1, as in `prices / prices.iloc[0] - 1`:
finite values shift, infinities and NaN absorb. -/
def fpSubOne : FP → FP
  | .fin q => .fin (q - 1)
  | x => x

/-- `cumulative_returns` from the source: convert a price series to
cumulative returns `p / p0 - 1` anchored at the first price. -/
def cumulative_returns (prices : List ℚ) : List FP :=
  match prices with
  | [] => []
  | p0 :: _ => prices.map (fun p => fpSubOne (fpDiv p p0))

/-- The per-year admission test of the matrix-building loop: the year
is kept when `len(grp) >= 30`, no computed return is null, and the
return series again has at least 30 entries. -/
def validYear (prices : List ℚ) : Bool :=
  decide (30 ≤ prices.length) &&
    (!(cumulative_returns prices).any FP.isNan &&
      decide (30 ≤ (cumulative_returns prices).length))

/-- Finite projection of an `FP` value. -/
def FP.toQ : FP → Option ℚ
  | .fin q => some q
  | _ => none

/-- The stored per-year path: the finite values of the computed return
series (for every admitted year all entries are finite, so nothing is
dropped; this is what `ytd_df[year].dropna()` recovers). -/
def yearPath (prices : List ℚ) : List ℚ :=
  (cumulative_returns prices).filterMap FP.toQ

/-- The columns of `ytd_df`: every year of the raw data that passes
`validYear`, paired with its return path, in data order. -/
def ytdColumns (data : List (ℕ × List ℚ)) : List (ℕ × List ℚ) :=
  data.filterMap (fun yp =>
    if validYear yp.2 then some (yp.1, yearPath yp.2) else none)

/-- Exact representation of `np.corrcoef(x, y)[0, 1]`.  With
`n = len(x)`, `S_xy = n * sum (x*y) - sum x * sum y` and likewise
`S_xx`, `S_yy`, the coefficient is `S_xy / sqrt (S_xx * S_yy)`; it is
represented by the pair `(S_xy, S_xx * S_yy)`, and is `none` (NaN)
exactly when a variance vanishes and numpy returns NaN. -/
def pearsonRep (x y : List ℚ) : Option (ℚ × ℚ) :=
  let n : ℚ := x.length
  let sx := x.sum
  let sy := y.sum
  let sxy := n * (List.zipWith (fun a b => a * b) x y).sum - sx * sy
  let sxx := n * (x.map (fun a => a * a)).sum - sx * sx
  let syy := n * (y.map (fun a => a * a)).sum - sy * sy
  if sxx * syy = 0 then none else some (sxy, sxx * syy)

/-- One iteration of the ranking loop for a candidate path: the
overlap window is the minimum of the two lengths, the candidate is
skipped (`none`) when the overlap is below 30, and otherwise the
coefficient is taken over the first `overlap` values of each path. -/
def corrOf (cur cand : List ℚ) : Option (Option (ℚ × ℚ)) :=
  let overlap := min cur.length cand.length
  if overlap < 30 then none
  else some (pearsonRep (cur.take overlap) (cand.take overlap))

/-- The `correlations` dictionary: every column except the current
year, kept in column order, skipped when `corrOf` skips it. -/
def correlationsOf (cur : List ℚ) (cols : List (ℕ × List ℚ))
    (curYear : ℕ) : List (ℕ × Option (ℚ × ℚ)) :=
  cols.filterMap (fun yp =>
    if yp.1 = curYear then none
    else
      match corrOf cur yp.2 with
      | none => none
      | some r => some (yp.1, r))

/-- The float comparison `rho >= min_corr` on the represented
coefficient: false for NaN; for `rho = c / sqrt v` with `v > 0` it is
decided by sign analysis and squaring. -/
def rhoGe : Option (ℚ × ℚ) → ℚ → Bool
  | none, _ => false
  | some (c, v), t =>
    if 0 ≤ t then decide (0 ≤ c) && decide (t * t * v ≤ c * c)
    else decide (0 ≤ c) || decide (c * c ≤ t * t * v)

/-- The cutoff filter `filtered_corr`: entries whose coefficient
satisfies `rho >= min_corr`, in order (NaN entries never pass). -/
def filteredCorr (corrs : List (ℕ × Option (ℚ × ℚ))) (t : ℚ) :
    List (ℕ × ℚ × ℚ) :=
  corrs.filterMap (fun yr =>
    match yr.2 with
    | none => none
    | some p => if rhoGe (some p) t then some (yr.1, p) else none)

/-- Strict float comparison of two represented coefficients
`c1 / sqrt v1 < c2 / sqrt v2` (for positive `v`), decided by sign
analysis and cross multiplication of squares. -/
def rhoLt : ℚ × ℚ → ℚ × ℚ → Bool
  | (c1, v1), (c2, v2) =>
    if c1 < 0 then
      decide (0 ≤ c2) || (decide (c2 < 0) && decide (c2 * c2 * v1 < c1 * c1 * v2))
    else if c1 = 0 then decide (0 < c2)
    else decide (0 < c2) && decide (c1 * c1 * v2 < c2 * c2 * v1)

/-- Insertion step of a stable descending sort: the new element goes
after every element whose coefficient is not below its own. -/
def insertDesc (a : ℕ × ℚ × ℚ) : List (ℕ × ℚ × ℚ) → List (ℕ × ℚ × ℚ)
  | [] => [a]
  | b :: l => if rhoLt b.2 a.2 then a :: b :: l else b :: insertDesc a l

/-- Stable descending sort by coefficient, the model of
`sorted(..., key=lambda kv: kv[1], reverse=True)` (Python sorting is
stable, and `reverse=True` keeps ties in iteration order). -/
def sortDesc (l : List (ℕ × ℚ × ℚ)) : List (ℕ × ℚ × ℚ) :=
  l.foldl (fun acc a => insertDesc a acc) []

/-- `top_matches`: sort the filtered candidates descending and
truncate to the first `top_n`. -/
def topMatches (filtered : List (ℕ × ℚ × ℚ)) (top_n : ℕ) :
    List (ℕ × ℚ × ℚ) :=
  (sortDesc filtered).take top_n

/-- Terminal states of one ranking request. -/
inductive Outcome where
  | noCurrentData
  | noQualifying
  | ranked (ms : List (ℕ × ℚ × ℚ))
  deriving DecidableEq, Repr

/-- The request pipeline of the source, from the grouped raw data to
the terminal state: build the matrix columns, stop with a warning when
the current year is not among them, rank the rest, stop with a warning
when nothing survives the cutoff, and otherwise report the matches. -/
def analogPipeline (data : List (ℕ × List ℚ)) (curYear top_n : ℕ)
    (minCorr : ℚ) : Outcome :=
  let cols := ytdColumns data
  match List.lookup curYear cols with
  | none => .noCurrentData
  | some cur =>
    let tm := topMatches (filteredCorr (correlationsOf cur cols curYear) minCorr) top_n
    if tm.isEmpty then .noQualifying else .ranked tm

/-- Rational order surrogate of the represented coefficient: the real
map `rho to rho * abs rho` is strictly monotone, and for `v > 0` the
surrogate of `c / sqrt v` is `c * |c| / v`. -/
def rhoKey (p : ℚ × ℚ) : ℚ := p.1 * |p.1| / p.2

/-- The descending order with the stability tie-break the Python sort
realises: coefficients never increase along the list, and whenever two
adjacent coefficients are equal the earlier entry carries the smaller
year (candidate years are iterated in ascending order). -/
def MatchOrdered (a b : ℕ × ℚ × ℚ) : Prop :=
  rhoLt a.2 b.2 = false ∧ (rhoLt b.2 a.2 = false → a.1 < b.1)

/-! Concrete price series and data sets used to evaluate the pipeline
on explicit inputs. -/

/-- Thirty strictly increasing prices 1, 2, ..., 30 (returns 0..29). -/
def priceRamp : List ℚ := (List.range 30).map (fun i => (i : ℚ) + 1)

/-- Thirty strictly decreasing prices 30, 29, ..., 1; its return path
is perfectly anticorrelated with the ramp. -/
def priceDown : List ℚ := (List.range 30).map (fun i => (30 : ℚ) - i)

/-- Thirty constant prices: a valid year whose return path is
identically zero, hence has zero variance. -/
def priceFlat : List ℚ := List.replicate 30 (7 : ℚ)

/-- A short series of only ten prices, below the 30-observation bar. -/
def priceShort : List ℚ := List.replicate 10 (1 : ℚ)

/-- Data whose nominal current year 2026 has no observations while
2024 has a full valid path. -/
def c1data : List (ℕ × List ℚ) := [(2024, priceRamp), (2026, [])]

/-- Data with one candidate year perfectly anticorrelated with the
current year. -/
def c2data : List (ℕ × List ℚ) := [(1990, priceDown), (2026, priceRamp)]

/-- Data with two candidate years carrying identical paths, hence
exactly equal correlation with the current year. -/
def c3data : List (ℕ × List ℚ) :=
  [(1990, priceRamp), (1991, priceRamp), (2026, priceRamp)]

/-- Data with one admissible year and one year that is too short. -/
def c4data : List (ℕ × List ℚ) := [(1999, priceRamp), (2000, priceShort)]

/-- Data with a single admissible year. -/
def c5data : List (ℕ × List ℚ) := [(2001, priceDown)]

/-- Matrix columns with one candidate next to the current year. -/
def cols6 : List (ℕ × List ℚ) :=
  [(1995, yearPath priceRamp), (2026, yearPath priceRamp)]

/-- Data with three surviving candidates, fewer than a top five. -/
def c8data : List (ℕ × List ℚ) :=
  [(1990, priceRamp), (1991, priceRamp), (1992, priceRamp),
    (2026, priceRamp)]

/-- Data with no candidate years at all next to the current year. -/
def c9data : List (ℕ × List ℚ) := [(2026, priceRamp)]

/-- Matrix columns whose single candidate path is constant. -/
def cols10 : List (ℕ × List ℚ) :=
  [(2026, yearPath priceRamp), (1990, yearPath priceFlat)]

/-! Basic structure of the per-year computation. -/

theorem cumulative_returns_length (ps : List ℚ) :
    (cumulative_returns ps).length = ps.length := by
  cases ps with
  | nil => rfl
  | cons p0 r => simp [cumulative_returns]

theorem validYear_iff (ps : List ℚ) :
    validYear ps = true ↔
      30 ≤ ps.length ∧ ∀ r ∈ cumulative_returns ps, r.isNan = false := by
  constructor
  · intro h
    simp only [validYear, Bool.and_eq_true, Bool.not_eq_true', decide_eq_true_eq,
      List.any_eq_false, Bool.not_eq_true] at h
    exact ⟨h.1, h.2.1⟩
  · intro h
    simp only [validYear, Bool.and_eq_true, Bool.not_eq_true', decide_eq_true_eq,
      List.any_eq_false, Bool.not_eq_true, cumulative_returns_length]
    exact ⟨h.1, h.2, h.1⟩

theorem validYear_head_ne_zero {p0 : ℚ} {r : List ℚ}
    (h : validYear (p0 :: r) = true) : p0 ≠ 0 := by
  intro h0
  have h1 := ((validYear_iff _).1 h).2
  have hmem : fpSubOne (fpDiv p0 p0) ∈ cumulative_returns (p0 :: r) := by
    simp [cumulative_returns]
  have h2 := h1 _ hmem
  rw [h0] at h2
  simp [fpDiv, fpSubOne, FP.isNan] at h2

theorem validYear_entry_fin {ps : List ℚ} (h : validYear ps = true) :
    ∀ r ∈ cumulative_returns ps, ∃ q, r = FP.fin q := by
  cases ps with
  | nil => intro r hr; simp [cumulative_returns] at hr
  | cons p0 t =>
    have hp0 : p0 ≠ 0 := validYear_head_ne_zero h
    intro r hr
    simp only [cumulative_returns, List.mem_map] at hr
    obtain ⟨p, _, rfl⟩ := hr
    exact ⟨p / p0 - 1, by simp [fpDiv, hp0, fpSubOne]⟩

theorem yearPath_length {ps : List ℚ} (h : validYear ps = true) :
    (yearPath ps).length = ps.length := by
  rw [← cumulative_returns_length ps]
  unfold yearPath
  have hfin := validYear_entry_fin h
  generalize cumulative_returns ps = l at hfin ⊢
  induction l with
  | nil => rfl
  | cons a t ih =>
    obtain ⟨q, rfl⟩ := hfin a (by simp)
    simp only [List.filterMap_cons, FP.toQ, List.length_cons]
    rw [ih (fun r hr => hfin r (by simp [hr]))]

theorem yearPath_head {ps : List ℚ} (h : validYear ps = true) :
    (yearPath ps).head? = some 0 := by
  cases ps with
  | nil => exact absurd ((validYear_iff _).1 h).1 (by simp)
  | cons p0 t =>
    have hp0 : p0 ≠ 0 := validYear_head_ne_zero h
    simp [yearPath, cumulative_returns, fpDiv, hp0, fpSubOne, FP.toQ,
      div_self hp0]

theorem mem_ytdColumns {data : List (ℕ × List ℚ)} {y : ℕ} {q : List ℚ} :
    (y, q) ∈ ytdColumns data ↔
      ∃ ps, (y, ps) ∈ data ∧ validYear ps = true ∧ q = yearPath ps := by
  simp only [ytdColumns, List.mem_filterMap]
  constructor
  · rintro ⟨⟨y1, ps⟩, hmem, hf⟩
    by_cases hv : validYear ps = true
    · simp only [hv, if_true, Option.some.injEq, Prod.mk.injEq] at hf
      obtain ⟨h1, h2⟩ := hf
      subst h1
      subst h2
      exact ⟨ps, hmem, hv, rfl⟩
    · simp [hv] at hf
  · rintro ⟨ps, hmem, hv, rfl⟩
    exact ⟨(y, ps), hmem, by simp [hv]⟩

/-! Sums of squares and positivity of the represented variance. -/

theorem sum_sq_nonneg (l : List ℚ) : 0 ≤ (l.map (fun a => a * a)).sum := by
  induction l with
  | nil => simp
  | cons a t ih =>
    simp only [List.map_cons, List.sum_cons]
    nlinarith [mul_self_nonneg a]

theorem sq_sum_le_step (a s q n : ℚ) (hn : 0 ≤ n) (hq : 0 ≤ q)
    (ih : s * s ≤ n * q) : (a + s) * (a + s) ≤ (n + 1) * (a * a + q) := by
  rcases eq_or_lt_of_le hn with hz | hpos
  · have hs : s * s ≤ 0 := by rw [← hz] at ih; linarith
    have hs0 : s = 0 := by nlinarith [mul_self_nonneg s]
    subst hs0
    rw [← hz]
    nlinarith
  · have key : (n + 1) * (s * s) ≤ (n + 1) * (n * q) :=
      mul_le_mul_of_nonneg_left ih (by linarith)
    nlinarith [key, sq_nonneg (n * a - s), hpos]

theorem sq_sum_le (l : List ℚ) :
    l.sum * l.sum ≤ (l.length : ℚ) * (l.map (fun a => a * a)).sum := by
  induction l with
  | nil => simp
  | cons a t ih =>
    simp only [List.sum_cons, List.map_cons, List.length_cons]
    push_cast
    exact sq_sum_le_step a t.sum _ _ (by positivity) (sum_sq_nonneg t) ih

theorem pearsonRep_pos {x y : List ℚ} {c v : ℚ} (hlen : y.length = x.length)
    (h : pearsonRep x y = some (c, v)) : 0 < v := by
  simp only [pearsonRep] at h
  split at h
  · exact absurd h (by simp)
  · rename_i hne
    simp only [Option.some.injEq, Prod.mk.injEq] at h
    obtain ⟨-, hv⟩ := h
    have hx : 0 ≤ (x.length : ℚ) * (x.map (fun a => a * a)).sum - x.sum * x.sum := by
      have := sq_sum_le x
      linarith
    have hy : 0 ≤ (x.length : ℚ) * (y.map (fun a => a * a)).sum - y.sum * y.sum := by
      have := sq_sum_le y
      rw [hlen] at this
      linarith
    rw [← hv]
    rcases lt_or_eq_of_le (mul_nonneg hx hy) with hpos | hzero
    · exact hpos
    · exact absurd hzero.symm hne

/-! Order facts about the represented coefficients.  For a positive
variance product `v` the real coefficient `c / sqrt v` compares the
same way as the rational surrogate `c * |c| / v` (the map
`x to x * |x|` is strictly monotone), so `rhoLt` is exactly the strict
order of the surrogates. -/

theorem rhoLt_iff_key {c1 v1 c2 v2 : ℚ} (hv1 : 0 < v1) (hv2 : 0 < v2) :
    rhoLt (c1, v1) (c2, v2) = true ↔ c1 * |c1| / v1 < c2 * |c2| / v2 := by
  rcases lt_trichotomy c1 0 with h1 | h1 | h1 <;>
    rcases lt_trichotomy c2 0 with h2 | h2 | h2
  · simp only [rhoLt]
    rw [if_pos h1]
    simp only [Bool.or_eq_true, Bool.and_eq_true, decide_eq_true_eq]
    rw [abs_of_neg h1, abs_of_neg h2, div_lt_div_iff₀ hv1 hv2]
    constructor
    · rintro (hc | ⟨-, hlt⟩)
      · exact absurd hc (not_le.2 h2)
      · nlinarith [hlt]
    · intro h
      exact Or.inr ⟨h2, by nlinarith [h]⟩
  · subst h2
    simp only [rhoLt]
    rw [if_pos h1]
    simp only [Bool.or_eq_true, Bool.and_eq_true, decide_eq_true_eq,
      zero_mul, abs_zero, mul_zero, zero_div]
    rw [abs_of_neg h1]
    constructor
    · intro h
      exact div_neg_of_neg_of_pos (by nlinarith) hv1
    · intro h
      exact Or.inl le_rfl
  · simp only [rhoLt]
    rw [if_pos h1]
    simp only [Bool.or_eq_true, Bool.and_eq_true, decide_eq_true_eq]
    rw [abs_of_neg h1, abs_of_pos h2]
    constructor
    · intro h
      have hl : c1 * -c1 / v1 < 0 := div_neg_of_neg_of_pos (by nlinarith) hv1
      have hr : 0 < c2 * c2 / v2 := by positivity
      linarith
    · intro h
      exact Or.inl (le_of_lt h2)
  · subst h1
    simp only [rhoLt]
    rw [if_neg (lt_irrefl (0 : ℚ))]
    simp only [if_true, decide_eq_true_eq, zero_mul, abs_zero, mul_zero, zero_div]
    rw [abs_of_neg h2]
    constructor
    · intro h
      exact absurd h (by linarith)
    · intro h
      have hr : c2 * -c2 / v2 ≤ 0 :=
        div_nonpos_of_nonpos_of_nonneg (by nlinarith) (le_of_lt hv2)
      exact absurd h (not_lt.2 hr)
  · subst h1; subst h2
    norm_num [rhoLt]
  · subst h1
    simp only [rhoLt]
    rw [if_neg (lt_irrefl (0 : ℚ))]
    simp only [if_true, decide_eq_true_eq, zero_mul, abs_zero, mul_zero, zero_div]
    rw [abs_of_pos h2]
    constructor
    · intro h
      positivity
    · intro h
      exact h2
  · simp only [rhoLt]
    rw [if_neg (asymm h1), if_neg (ne_of_gt h1)]
    simp only [Bool.and_eq_true, decide_eq_true_eq]
    rw [abs_of_pos h1, abs_of_neg h2]
    constructor
    · rintro ⟨hc2, -⟩
      exact absurd hc2 (by linarith)
    · intro h
      have hl : 0 < c1 * c1 / v1 := by positivity
      have hr : c2 * -c2 / v2 ≤ 0 :=
        div_nonpos_of_nonpos_of_nonneg (by nlinarith) (le_of_lt hv2)
      exact absurd h (not_lt.2 (by linarith))
  · subst h2
    simp only [rhoLt]
    rw [if_neg (asymm h1), if_neg (ne_of_gt h1)]
    simp only [Bool.and_eq_true, decide_eq_true_eq, zero_mul, abs_zero,
      mul_zero, zero_div]
    rw [abs_of_pos h1]
    constructor
    · rintro ⟨hc2, -⟩
      exact absurd hc2 (lt_irrefl 0)
    · intro h
      have hl : 0 < c1 * c1 / v1 := by positivity
      exact absurd h (not_lt.2 (le_of_lt hl))
  · simp only [rhoLt]
    rw [if_neg (asymm h1), if_neg (ne_of_gt h1)]
    simp only [Bool.and_eq_true, decide_eq_true_eq]
    rw [abs_of_pos h1, abs_of_pos h2, div_lt_div_iff₀ hv1 hv2]
    constructor
    · rintro ⟨-, hlt⟩
      exact hlt
    · intro h
      exact ⟨h2, h⟩

theorem rhoLt_eq_false_iff {c1 v1 c2 v2 : ℚ} (hv1 : 0 < v1) (hv2 : 0 < v2) :
    rhoLt (c1, v1) (c2, v2) = false ↔ c2 * |c2| / v2 ≤ c1 * |c1| / v1 := by
  rw [← Bool.not_eq_true, rhoLt_iff_key hv1 hv2, not_lt]

theorem rhoLt_true_iff {x y : ℚ × ℚ} (hx : 0 < x.2) (hy : 0 < y.2) :
    rhoLt x y = true ↔ rhoKey x < rhoKey y := by
  obtain ⟨c1, v1⟩ := x
  obtain ⟨c2, v2⟩ := y
  exact rhoLt_iff_key hx hy

theorem rhoLt_false_iff {x y : ℚ × ℚ} (hx : 0 < x.2) (hy : 0 < y.2) :
    rhoLt x y = false ↔ rhoKey y ≤ rhoKey x := by
  obtain ⟨c1, v1⟩ := x
  obtain ⟨c2, v2⟩ := y
  exact rhoLt_eq_false_iff hx hy

theorem mem_insertDesc (a x : ℕ × ℚ × ℚ) (l : List (ℕ × ℚ × ℚ)) :
    x ∈ insertDesc a l ↔ x = a ∨ x ∈ l := by
  induction l with
  | nil => simp [insertDesc]
  | cons b t ih =>
    simp only [insertDesc]
    split_ifs
    · simp [List.mem_cons]
    · simp only [List.mem_cons, ih]
      tauto

theorem insertDesc_length (a : ℕ × ℚ × ℚ) (l : List (ℕ × ℚ × ℚ)) :
    (insertDesc a l).length = l.length + 1 := by
  induction l with
  | nil => rfl
  | cons b t ih =>
    simp only [insertDesc]
    split_ifs
    · simp
    · simp [ih]

theorem insertDesc_pairwise (a : ℕ × ℚ × ℚ) (l : List (ℕ × ℚ × ℚ))
    (hva : 0 < a.2.2) (hvl : ∀ p ∈ l, 0 < p.2.2)
    (hyl : ∀ b ∈ l, b.1 < a.1) (hp : l.Pairwise MatchOrdered) :
    (insertDesc a l).Pairwise MatchOrdered := by
  induction l with
  | nil => simp [insertDesc, MatchOrdered]
  | cons b t ih =>
    rw [List.pairwise_cons] at hp
    obtain ⟨hb, ht⟩ := hp
    have hvb : 0 < b.2.2 := hvl b (by simp)
    have hvt : ∀ p ∈ t, 0 < p.2.2 := fun p hm => hvl p (by simp [hm])
    simp only [insertDesc]
    split_ifs with hlt
    · have hba : rhoKey b.2 < rhoKey a.2 := (rhoLt_true_iff hvb hva).1 hlt
      rw [List.pairwise_cons]
      refine ⟨?_, List.pairwise_cons.2 ⟨hb, ht⟩⟩
      intro c hc
      rcases List.mem_cons.1 hc with rfl | hct
      · refine ⟨(rhoLt_false_iff hva hvb).2 (le_of_lt hba), ?_⟩
        intro hfalse
        have := (rhoLt_false_iff hvb hva).1 hfalse
        exact absurd hba (not_lt.2 this)
      · have hvc := hvt c hct
        have hbc := hb c hct
        have hkey_cb : rhoKey c.2 ≤ rhoKey b.2 := (rhoLt_false_iff hvb hvc).1 hbc.1
        refine ⟨(rhoLt_false_iff hva hvc).2 (by linarith), ?_⟩
        intro hfalse
        have := (rhoLt_false_iff hvc hva).1 hfalse
        linarith
    · have hlt' : rhoLt b.2 a.2 = false := by simpa using hlt
      rw [List.pairwise_cons]
      constructor
      · intro c hc
        rcases (mem_insertDesc a c t).1 hc with rfl | hct
        · exact ⟨hlt', fun _ => hyl b (by simp)⟩
        · exact hb c hct
      · exact ih hvt (fun p hm => hyl p (by simp [hm])) ht

theorem sortDesc_aux_pairwise (l : List (ℕ × ℚ × ℚ)) :
    ∀ acc : List (ℕ × ℚ × ℚ), (∀ p ∈ l, 0 < p.2.2) → (∀ p ∈ acc, 0 < p.2.2) →
      (∀ a ∈ l, ∀ b ∈ acc, b.1 < a.1) →
      l.Pairwise (fun a b => a.1 < b.1) → acc.Pairwise MatchOrdered →
      (l.foldl (fun acc a => insertDesc a acc) acc).Pairwise MatchOrdered := by
  induction l with
  | nil =>
    intro acc _ _ _ _ hacc
    simpa using hacc
  | cons a t ih =>
    intro acc hvl hvacc hcross hyl hacc
    simp only [List.foldl_cons]
    have hva : 0 < a.2.2 := hvl a (by simp)
    apply ih
    · exact fun p hm => hvl p (by simp [hm])
    · intro p hm
      rcases (mem_insertDesc a p acc).1 hm with rfl | hmem
      · exact hva
      · exact hvacc p hmem
    · intro x hx b hbmem
      rcases (mem_insertDesc a b acc).1 hbmem with rfl | hmem
      · exact (List.pairwise_cons.1 hyl).1 x hx
      · exact hcross x (by simp [hx]) b hmem
    · exact (List.pairwise_cons.1 hyl).2
    · exact insertDesc_pairwise a acc hva hvacc
        (fun b hbm => hcross a (by simp) b hbm) hacc

theorem sortDesc_pairwise (l : List (ℕ × ℚ × ℚ))
    (hv : ∀ p ∈ l, 0 < p.2.2) (hy : l.Pairwise (fun a b => a.1 < b.1)) :
    (sortDesc l).Pairwise MatchOrdered :=
  sortDesc_aux_pairwise l [] hv (by simp) (by simp) hy (by simp)

theorem sortDesc_len_aux (l : List (ℕ × ℚ × ℚ)) :
    ∀ acc : List (ℕ × ℚ × ℚ),
      (l.foldl (fun acc a => insertDesc a acc) acc).length =
        l.length + acc.length := by
  induction l with
  | nil => intro acc; simp
  | cons a t ih =>
    intro acc
    simp only [List.foldl_cons, List.length_cons]
    rw [ih (insertDesc a acc), insertDesc_length]
    omega

theorem sortDesc_length (l : List (ℕ × ℚ × ℚ)) :
    (sortDesc l).length = l.length := by
  have := sortDesc_len_aux l []
  simpa [sortDesc] using this

theorem topMatches_length (filtered : List (ℕ × ℚ × ℚ)) (n : ℕ) :
    (topMatches filtered n).length = min n filtered.length := by
  simp [topMatches, List.length_take, sortDesc_length]

/-! Membership structure of the ranking stages. -/

theorem mem_correlationsOf {cur : List ℚ} {cols : List (ℕ × List ℚ)}
    {cy y : ℕ} {r : Option (ℚ × ℚ)} :
    (y, r) ∈ correlationsOf cur cols cy ↔
      ∃ p, (y, p) ∈ cols ∧ y ≠ cy ∧ corrOf cur p = some r := by
  simp only [correlationsOf, List.mem_filterMap]
  constructor
  · rintro ⟨⟨y1, p⟩, hmem, hf⟩
    by_cases hcy : y1 = cy
    · simp [hcy] at hf
    · simp only [hcy, if_false] at hf
      cases hco : corrOf cur p with
      | none => rw [hco] at hf; simp at hf
      | some r0 =>
        rw [hco] at hf
        simp only [Option.some.injEq, Prod.mk.injEq] at hf
        obtain ⟨h1, h2⟩ := hf
        subst h1
        subst h2
        exact ⟨p, hmem, hcy, hco⟩
  · rintro ⟨p, hmem, hcy, hco⟩
    refine ⟨(y, p), hmem, ?_⟩
    simp [hcy, hco]

theorem mem_filteredCorr {corrs : List (ℕ × Option (ℚ × ℚ))} {t : ℚ}
    {y : ℕ} {q : ℚ × ℚ} :
    (y, q) ∈ filteredCorr corrs t ↔
      (y, some q) ∈ corrs ∧ rhoGe (some q) t = true := by
  simp only [filteredCorr, List.mem_filterMap]
  constructor
  · rintro ⟨⟨y1, r⟩, hmem, hf⟩
    cases r with
    | none => simp at hf
    | some p =>
      simp only at hf
      split_ifs at hf with hge
      simp only [Option.some.injEq, Prod.mk.injEq] at hf
      obtain ⟨h1, h2⟩ := hf
      subst h1
      subst h2
      exact ⟨hmem, hge⟩
  · rintro ⟨hmem, hge⟩
    exact ⟨(y, some q), hmem, by simp [hge]⟩

theorem corrOf_some_pos {cur p : List ℚ} {c v : ℚ}
    (h : corrOf cur p = some (some (c, v))) : 0 < v := by
  simp only [corrOf] at h
  split_ifs at h with hov
  simp only [Option.some.injEq] at h
  have hlen : (p.take (min cur.length p.length)).length =
      (cur.take (min cur.length p.length)).length := by
    simp only [List.length_take]
    omega
  exact pearsonRep_pos hlen h

theorem filteredCorr_pos {cur : List ℚ} {cols : List (ℕ × List ℚ)}
    {cy : ℕ} {t : ℚ} :
    ∀ q ∈ filteredCorr (correlationsOf cur cols cy) t, 0 < q.2.2 := by
  rintro ⟨y, c, v⟩ hmem
  obtain ⟨hc, -⟩ := mem_filteredCorr.1 hmem
  obtain ⟨p, -, -, hco⟩ := mem_correlationsOf.1 hc
  exact corrOf_some_pos hco

theorem pairwise_fst_filterMap {α β : Type} (f : (ℕ × α) → Option (ℕ × β))
    (hf : ∀ x y, f x = some y → y.1 = x.1) {l : List (ℕ × α)}
    (h : l.Pairwise (fun a b => a.1 < b.1)) :
    (l.filterMap f).Pairwise (fun a b => a.1 < b.1) := by
  rw [List.pairwise_filterMap]
  refine h.imp ?_
  intro a b hab x hx y hy
  rw [hf a x hx, hf b y hy]
  exact hab

theorem ytdColumns_pairwise_year {data : List (ℕ × List ℚ)}
    (h : data.Pairwise (fun a b => a.1 < b.1)) :
    (ytdColumns data).Pairwise (fun a b => a.1 < b.1) := by
  apply pairwise_fst_filterMap _ _ h
  intro x y hf
  split_ifs at hf with hv
  simp only [Option.some.injEq] at hf
  rw [← hf]

theorem correlationsOf_pairwise_year {cur : List ℚ} {cols : List (ℕ × List ℚ)}
    {cy : ℕ} (h : cols.Pairwise (fun a b => a.1 < b.1)) :
    (correlationsOf cur cols cy).Pairwise (fun a b => a.1 < b.1) := by
  apply pairwise_fst_filterMap _ _ h
  intro x y hf
  split_ifs at hf with hcy
  cases hco : corrOf cur x.2 with
  | none => rw [hco] at hf; simp at hf
  | some r0 =>
    rw [hco] at hf
    simp only [Option.some.injEq] at hf
    rw [← hf]

theorem filteredCorr_pairwise_year {corrs : List (ℕ × Option (ℚ × ℚ))}
    {t : ℚ} (h : corrs.Pairwise (fun a b => a.1 < b.1)) :
    (filteredCorr corrs t).Pairwise (fun a b => a.1 < b.1) := by
  apply pairwise_fst_filterMap _ _ h
  intro x y hf
  cases x with
  | mk y1 r =>
    cases r with
    | none => simp at hf
    | some p =>
      simp only at hf
      split_ifs at hf
      simp only [Option.some.injEq] at hf
      rw [← hf]

/-! Unfolding the pipeline on the two current-year cases. -/

theorem analogPipeline_none {data : List (ℕ × List ℚ)} {cy n : ℕ} {t : ℚ}
    (h : List.lookup cy (ytdColumns data) = none) :
    analogPipeline data cy n t = .noCurrentData := by
  simp [analogPipeline, h]

theorem analogPipeline_some {data : List (ℕ × List ℚ)} {cy n : ℕ} {t : ℚ}
    {cur : List ℚ} (h : List.lookup cy (ytdColumns data) = some cur) :
    analogPipeline data cy n t =
      (if (topMatches (filteredCorr (correlationsOf cur (ytdColumns data) cy) t)
            n).isEmpty
       then Outcome.noQualifying
       else Outcome.ranked
         (topMatches (filteredCorr (correlationsOf cur (ytdColumns data) cy) t)
           n)) := by
  simp [analogPipeline, h]

theorem analogPipeline_ranked_inv {data : List (ℕ × List ℚ)} {cy n : ℕ}
    {t : ℚ} {L : List (ℕ × ℚ × ℚ)}
    (h : analogPipeline data cy n t = .ranked L) :
    ∃ cur, List.lookup cy (ytdColumns data) = some cur ∧
      L = topMatches (filteredCorr (correlationsOf cur (ytdColumns data) cy) t)
        n := by
  cases hc : List.lookup cy (ytdColumns data) with
  | none =>
    rw [analogPipeline_none hc] at h
    exact absurd h (by simp)
  | some cur =>
    rw [analogPipeline_some hc] at h
    by_cases he : (topMatches (filteredCorr (correlationsOf cur
        (ytdColumns data) cy) t) n).isEmpty = true
    · rw [if_pos he] at h
      exact absurd h (by simp)
    · rw [if_neg he] at h
      simp only [Outcome.ranked.injEq] at h
      exact ⟨cur, rfl, h.symm⟩

/-! Constant candidate paths give a vanishing variance. -/

theorem const_sum {l : List ℚ} {k : ℚ} (h : ∀ a ∈ l, a = k) :
    l.sum = l.length * k := by
  induction l with
  | nil => simp
  | cons a t ih =>
    have ha : a = k := h a (by simp)
    rw [List.sum_cons, ih (fun b hb => h b (by simp [hb])), ha]
    simp only [List.length_cons]
    push_cast
    ring

theorem const_sq_sum {l : List ℚ} {k : ℚ} (h : ∀ a ∈ l, a = k) :
    (l.map (fun a => a * a)).sum = l.length * (k * k) := by
  induction l with
  | nil => simp
  | cons a t ih =>
    have ha : a = k := h a (by simp)
    rw [List.map_cons, List.sum_cons, ih (fun b hb => h b (by simp [hb])), ha]
    simp only [List.length_cons]
    push_cast
    ring

theorem pearsonRep_const_none {x y : List ℚ} {k : ℚ}
    (hlen : y.length = x.length) (h : ∀ a ∈ y, a = k) :
    pearsonRep x y = none := by
  have hz : (x.length : ℚ) * (y.map (fun a => a * a)).sum - y.sum * y.sum
      = 0 := by
    rw [const_sum h, const_sq_sum h, hlen]
    ring
  simp [pearsonRep, hz]

/-! Remaining helper lemmas. -/

theorem nodup_key_eq {α : Type} {data : List (ℕ × α)} {y : ℕ} {a b : α}
    (hnodup : (data.map Prod.fst).Nodup) (ha : (y, a) ∈ data)
    (hb : (y, b) ∈ data) : a = b := by
  induction data with
  | nil => simp at ha
  | cons c t ih =>
    simp only [List.map_cons, List.nodup_cons] at hnodup
    rcases List.mem_cons.1 ha with rfl | hat
    · rcases List.mem_cons.1 hb with heq | hbt
      · exact (Prod.mk.injEq .. ▸ heq.symm).2.symm ▸ rfl
      · exact absurd (List.mem_map.2 ⟨(y, b), hbt, rfl⟩) hnodup.1
    · rcases List.mem_cons.1 hb with rfl | hbt
      · exact absurd (List.mem_map.2 ⟨(y, a), hat, rfl⟩) hnodup.1
      · exact ih hnodup.2 hat hbt

theorem zipWith_mul_comm (x y : List ℚ) :
    List.zipWith (fun a b => a * b) x y =
      List.zipWith (fun a b => a * b) y x := by
  induction x generalizing y with
  | nil => cases y <;> rfl
  | cons a t ih =>
    cases y with
    | nil => rfl
    | cons b u => simp [mul_comm, ih u]

theorem pearsonRep_comm {x y : List ℚ} (hlen : x.length = y.length) :
    pearsonRep x y = pearsonRep y x := by
  simp only [pearsonRep, zipWith_mul_comm x y, hlen]
  rw [mul_comm x.sum y.sum,
    mul_comm ((y.length : ℚ) * (x.map (fun a => a * a)).sum - x.sum * x.sum)
      ((y.length : ℚ) * (y.map (fun a => a * a)).sum - y.sum * y.sum)]

/-! The claims. -/

/-- Claim C1, amended: the source has no fallback anchor.  Whenever
the nominal current year has no valid path among the matrix columns,
the request stops in the no-current-data condition, even when other
years do have valid paths; no substitute anchor is ever selected. -/
theorem claim1_no_current_year_fails (data : List (ℕ × List ℚ))
    (cy n : ℕ) (t : ℚ)
    (h : List.lookup cy (ytdColumns data) = none) :
    analogPipeline data cy n t = Outcome.noCurrentData :=
  analogPipeline_none h

/-- Witness for the amended C1: in `c1data` the year 2026 has no
observations, so its lookup fails and the pipeline stops with the
no-current-data condition. -/
theorem claim1_witness :
    List.lookup 2026 (ytdColumns c1data) = none ∧
      analogPipeline c1data 2026 5 0 = Outcome.noCurrentData := by
  refine ⟨by with_unfolding_all rfl, ?_⟩
  exact claim1_no_current_year_fails c1data 2026 5 0 (by with_unfolding_all rfl)

/-- Counterexample to C1 as stated: in `c1data` the year 2024 has a
valid path of more than 30 observations, yet the pipeline does not
substitute it for the missing current year 2026; it stops in the
failure condition instead of producing a ranking anchored at 2024. -/
theorem claim1_counterexample :
    (2024, yearPath priceRamp) ∈ ytdColumns c1data ∧
      analogPipeline c1data 2026 5 0 = Outcome.noCurrentData := by
  constructor
  · have h : ytdColumns c1data = [(2024, yearPath priceRamp)] := by
      with_unfolding_all rfl
    rw [h]
    exact List.mem_cons_self _ _
  · with_unfolding_all rfl

/-- Claim C2: the slider comment in the source promises that a cutoff
of 0 applies no filtering, but the filter keeps only `rho >= 0`, so
the candidate year 1990, whose coefficient against 2026 is exactly -1
(represented by the pair (-4495/2, 20205025/4) with negative
covariance term), is dropped at cutoff 0 and the pipeline ends with
the no-qualifying warning although a correlation was computed. -/
theorem claim2_cutoff_zero_drops_negative :
    List.lookup 1990 (correlationsOf (yearPath priceRamp)
        (ytdColumns c2data) 2026) =
      some (some (-4495/2, 20205025/4)) ∧
    rhoGe (some (-4495/2, 20205025/4)) 0 = false ∧
    analogPipeline c2data 2026 5 0 = Outcome.noQualifying := by
  refine ⟨?_, ?_, ?_⟩ <;> with_unfolding_all rfl

/-- Counterexample to C3 as stated: the two candidate years of
`c3data` have identical paths and hence exactly equal coefficients,
yet the ranked list places 1990, the older year, before 1991. -/
theorem claim3_counterexample :
    analogPipeline c3data 2026 5 0 =
      Outcome.ranked
        [(1990, (67425, 4546130625)), (1991, (67425, 4546130625))] := by
  with_unfolding_all rfl

/-- Claim C3, amended: the ranked list is ordered by coefficient
descending, and when two entries carry exactly equal coefficients the
older (smaller) year precedes the more recent one — deterministically,
because the stable sort keeps the ascending-year iteration order. -/
theorem claim3_sorted_desc_ties_older_first (data : List (ℕ × List ℚ))
    (cy n : ℕ) (t : ℚ) (L : List (ℕ × ℚ × ℚ))
    (hy : data.Pairwise (fun a b => a.1 < b.1))
    (h : analogPipeline data cy n t = Outcome.ranked L) :
    L.Pairwise MatchOrdered := by
  obtain ⟨cur, hc, rfl⟩ := analogPipeline_ranked_inv h
  apply List.Pairwise.sublist (List.take_sublist _ _)
  apply sortDesc_pairwise
  · exact filteredCorr_pos
  · exact filteredCorr_pairwise_year
      (correlationsOf_pairwise_year (ytdColumns_pairwise_year hy))

/-- Witness for the amended C3: the concrete ranked list produced
from `c3data` satisfies the descending-with-older-ties-first order. -/
theorem claim3_witness :
    List.Pairwise MatchOrdered
      [(1990, ((67425 : ℚ), (4546130625 : ℚ))),
        (1991, ((67425 : ℚ), (4546130625 : ℚ)))] := by
  apply claim3_sorted_desc_ties_older_first c3data 2026 5 0 _ ?_ ?_
  · simp [c3data, List.pairwise_cons]
  · with_unfolding_all rfl

/-- Claim C4: a year of the raw data appears among the matrix columns
exactly when its price series has at least 30 observations and none of
its computed returns is NaN; a year failing either test contributes no
column at all (all-or-nothing), silently — the pipeline keeps going
rather than signalling an error. -/
theorem claim4_year_admission (data : List (ℕ × List ℚ)) (y : ℕ)
    (ps : List ℚ) (hmem : (y, ps) ∈ data)
    (hnodup : (data.map Prod.fst).Nodup) :
    ((y, yearPath ps) ∈ ytdColumns data ↔
      30 ≤ ps.length ∧ ∀ r ∈ cumulative_returns ps, r.isNan = false) ∧
    (¬(30 ≤ ps.length ∧ ∀ r ∈ cumulative_returns ps, r.isNan = false) →
      ∀ q, (y, q) ∉ ytdColumns data) := by
  constructor
  · constructor
    · intro h
      obtain ⟨ps2, hm2, hv2, -⟩ := mem_ytdColumns.1 h
      have he : ps2 = ps := nodup_key_eq hnodup hm2 hmem
      rw [he] at hv2
      exact (validYear_iff ps).1 hv2
    · intro h
      exact mem_ytdColumns.2 ⟨ps, hmem, (validYear_iff ps).2 h, rfl⟩
  · intro h q hq
    obtain ⟨ps2, hm2, hv2, -⟩ := mem_ytdColumns.1 hq
    have he : ps2 = ps := nodup_key_eq hnodup hm2 hmem
    rw [he] at hv2
    exact h ((validYear_iff ps).1 hv2)

/-- Witness for C4 at a concrete input: the ramp year 1999 of `c4data`
is admitted, and the ten-observation year 2000 contributes no column. -/
theorem claim4_witness :
    ((1999, yearPath priceRamp) ∈ ytdColumns c4data ↔
      30 ≤ priceRamp.length ∧
        ∀ r ∈ cumulative_returns priceRamp, r.isNan = false) ∧
    (¬(30 ≤ priceShort.length ∧
        ∀ r ∈ cumulative_returns priceShort, r.isNan = false) →
      ∀ q, (2000, q) ∉ ytdColumns c4data) := by
  constructor
  · exact (claim4_year_admission c4data 1999 priceRamp
      (List.mem_cons_self _ _) (by decide)).1
  · exact (claim4_year_admission c4data 2000 priceShort
      (List.mem_cons_of_mem _ (List.mem_cons_self _ _)) (by decide)).2

/-- Claim C5: every column of the return matrix starts at exactly 0,
since each return is price divided by the first price of the year,
minus one, and an admitted year has a nonzero first price. -/
theorem claim5_first_entry_zero (data : List (ℕ × List ℚ)) (y : ℕ)
    (p : List ℚ) (h : (y, p) ∈ ytdColumns data) : p.head? = some 0 := by
  obtain ⟨ps, -, hv, rfl⟩ := mem_ytdColumns.1 h
  exact yearPath_head hv

/-- Witness for C5 at a concrete input: the single column of `c5data`
starts at exactly 0. -/
theorem claim5_witness :
    (2001, yearPath priceDown) ∈ ytdColumns c5data ∧
      (yearPath priceDown).head? = some 0 := by
  have hm : (2001, yearPath priceDown) ∈ ytdColumns c5data := by
    have h : ytdColumns c5data = [(2001, yearPath priceDown)] := by
      with_unfolding_all rfl
    rw [h]
    exact List.mem_cons_self _ _
  exact ⟨hm, claim5_first_entry_zero c5data 2001 _ hm⟩

/-- Claim C6: for a candidate year other than the anchor the overlap
window is the minimum of the two path lengths; the candidate is absent
from the correlations exactly when that window is below 30, and
otherwise its coefficient is the Pearson coefficient of the first
`overlap` values of the anchor path against the first `overlap`
values of the candidate path, aligned position for position. -/
theorem claim6_overlap_and_alignment (cur : List ℚ)
    (cols : List (ℕ × List ℚ)) (cy y : ℕ) (p : List ℚ)
    (hmem : (y, p) ∈ cols) (hnodup : (cols.map Prod.fst).Nodup)
    (hne : y ≠ cy) :
    (min cur.length p.length < 30 →
      ∀ r, (y, r) ∉ correlationsOf cur cols cy) ∧
    (30 ≤ min cur.length p.length →
      (y, pearsonRep (cur.take (min cur.length p.length))
          (p.take (min cur.length p.length))) ∈
        correlationsOf cur cols cy) := by
  constructor
  · intro hov r hr
    obtain ⟨p2, hm2, -, hco⟩ := mem_correlationsOf.1 hr
    have he : p2 = p := nodup_key_eq hnodup hm2 hmem
    rw [he] at hco
    rw [corrOf, if_pos hov] at hco
    exact Option.noConfusion hco
  · intro hov
    apply mem_correlationsOf.2
    refine ⟨p, hmem, hne, ?_⟩
    rw [corrOf, if_neg (by omega : ¬min cur.length p.length < 30)]

/-- Witness for C6 at a concrete input: in `cols6` the candidate 1995
has full overlap with the anchor, and its coefficient is the Pearson
coefficient of the two aligned windows. -/
theorem claim6_witness :
    30 ≤ min (yearPath priceRamp).length (yearPath priceRamp).length ∧
    (1995, pearsonRep
        ((yearPath priceRamp).take
          (min (yearPath priceRamp).length (yearPath priceRamp).length))
        ((yearPath priceRamp).take
          (min (yearPath priceRamp).length (yearPath priceRamp).length))) ∈
      correlationsOf (yearPath priceRamp) cols6 2026 := by
  have hl : (yearPath priceRamp).length = 30 := by with_unfolding_all rfl
  have hov : 30 ≤ min (yearPath priceRamp).length (yearPath priceRamp).length := by
    rw [hl]
    omega
  refine ⟨hov, ?_⟩
  exact (claim6_overlap_and_alignment (yearPath priceRamp) cols6 2026 1995
    (yearPath priceRamp) (List.mem_cons_self _ _) (by decide)
    (by decide)).2 hov

/-- Claim C7: the per-candidate correlation step is symmetric: with
the roles of anchor and candidate exchanged, the overlap window, the
skip decision and the Pearson coefficient are all unchanged. -/
theorem claim7_correlation_symmetric (a b : List ℚ) :
    corrOf a b = corrOf b a := by
  rw [corrOf, corrOf, Nat.min_comm b.length a.length]
  by_cases h : min a.length b.length < 30
  · rw [if_pos h, if_pos h]
  · rw [if_neg h, if_neg h]
    congr 1
    apply pearsonRep_comm
    simp only [List.length_take]
    omega

/-- Claim C8: when the current year resolves and at least one
candidate survives the filters, the pipeline reports a ranked list
whose length is the minimum of top_n and the number of survivors —
fewer survivors than top_n yields exactly the survivors and is not an
error condition. -/
theorem claim8_truncation_length (data : List (ℕ × List ℚ)) (cy n : ℕ)
    (t : ℚ) (cur : List ℚ)
    (hcur : List.lookup cy (ytdColumns data) = some cur) (hn : 1 ≤ n)
    (hne : filteredCorr (correlationsOf cur (ytdColumns data) cy) t ≠ []) :
    analogPipeline data cy n t =
      Outcome.ranked (topMatches
        (filteredCorr (correlationsOf cur (ytdColumns data) cy) t) n) ∧
    (topMatches (filteredCorr (correlationsOf cur (ytdColumns data) cy) t)
        n).length =
      min n
        (filteredCorr (correlationsOf cur (ytdColumns data) cy) t).length := by
  have hlen := topMatches_length
    (filteredCorr (correlationsOf cur (ytdColumns data) cy) t) n
  have hpos : 0 <
      (filteredCorr (correlationsOf cur (ytdColumns data) cy) t).length :=
    List.length_pos.2 hne
  have hemp : ¬(topMatches
      (filteredCorr (correlationsOf cur (ytdColumns data) cy) t)
        n).isEmpty = true := by
    intro he
    have h0 := List.isEmpty_iff.1 he
    rw [h0] at hlen
    simp only [List.length_nil] at hlen
    omega
  rw [analogPipeline_some hcur, if_neg hemp]
  exact ⟨rfl, hlen⟩

/-- Witness for C8 at a concrete input: `c8data` has three surviving
candidates; requesting a top five returns a ranked list of length
min 5 3 = 3, not an error. -/
theorem claim8_witness :
    (filteredCorr (correlationsOf (yearPath priceRamp)
        (ytdColumns c8data) 2026) 0).length = 3 ∧
    analogPipeline c8data 2026 5 0 =
      Outcome.ranked (topMatches (filteredCorr (correlationsOf
        (yearPath priceRamp) (ytdColumns c8data) 2026) 0) 5) ∧
    (topMatches (filteredCorr (correlationsOf (yearPath priceRamp)
        (ytdColumns c8data) 2026) 0) 5).length =
      min 5 (filteredCorr (correlationsOf (yearPath priceRamp)
        (ytdColumns c8data) 2026) 0).length := by
  have h3 : (filteredCorr (correlationsOf (yearPath priceRamp)
      (ytdColumns c8data) 2026) 0).length = 3 := by with_unfolding_all rfl
  exact ⟨h3, claim8_truncation_length c8data 2026 5 0 (yearPath priceRamp)
    (by with_unfolding_all rfl) (by omega)
    (by intro h; rw [h] at h3; simp at h3)⟩

/-- Claim C9: when no candidate survives the overlap and cutoff
filtering, the pipeline ends in the reportable no-qualifying state
(the warning-and-stop branch of the source) rather than crashing or
reporting a ranking. -/
theorem claim9_empty_survivors (data : List (ℕ × List ℚ)) (cy n : ℕ)
    (t : ℚ) (cur : List ℚ)
    (hcur : List.lookup cy (ytdColumns data) = some cur)
    (hzero : filteredCorr (correlationsOf cur (ytdColumns data) cy) t
      = []) :
    analogPipeline data cy n t = Outcome.noQualifying := by
  rw [analogPipeline_some hcur, hzero]
  simp [topMatches, sortDesc]

/-- Witness for C9 at a concrete input: `c9data` has only the current
year, so no candidate survives and the pipeline reports the
no-qualifying condition. -/
theorem claim9_witness :
    filteredCorr (correlationsOf (yearPath priceRamp)
        (ytdColumns c9data) 2026) 0 = [] ∧
    analogPipeline c9data 2026 5 0 = Outcome.noQualifying := by
  refine ⟨by with_unfolding_all rfl, ?_⟩
  exact claim9_empty_survivors c9data 2026 5 0 (yearPath priceRamp)
    (by with_unfolding_all rfl) (by with_unfolding_all rfl)

/-- Claim C10: a candidate whose values over the overlap window are
all equal has a vanishing variance term, so its represented
coefficient is the NaN marker; since the comparison `rho >= c` is
false for NaN at every cutoff, the year is silently missing from the
filtered candidates for every cutoff value, including 0. -/
theorem claim10_constant_candidate_excluded (cur : List ℚ)
    (cols : List (ℕ × List ℚ)) (cy y : ℕ) (p : List ℚ) (k : ℚ)
    (hmem : (y, p) ∈ cols) (hnodup : (cols.map Prod.fst).Nodup)
    (hne : y ≠ cy) (hov : 30 ≤ min cur.length p.length)
    (hconst : ∀ a ∈ p.take (min cur.length p.length), a = k) :
    corrOf cur p = some none ∧
      ∀ t : ℚ, y ∉ (filteredCorr (correlationsOf cur cols cy) t).map
        Prod.fst := by
  have hcorr : corrOf cur p = some none := by
    rw [corrOf, if_neg (by omega : ¬min cur.length p.length < 30)]
    congr 1
    refine pearsonRep_const_none ?_ hconst
    simp only [List.length_take]
    omega
  refine ⟨hcorr, ?_⟩
  intro t hy
  simp only [List.mem_map] at hy
  obtain ⟨⟨y2, q⟩, hq, hy2⟩ := hy
  simp only at hy2
  subst hy2
  obtain ⟨hcmem, -⟩ := mem_filteredCorr.1 hq
  obtain ⟨p2, hm2, -, hco⟩ := mem_correlationsOf.1 hcmem
  have he : p2 = p := nodup_key_eq hnodup hm2 hmem
  rw [he, hcorr] at hco
  exact Option.noConfusion (Option.some.inj hco)

/-- Witness for C10 at a concrete input: the constant candidate 1990
of `cols10` gets the NaN coefficient and is excluded at cutoff 0. -/
theorem claim10_witness :
    corrOf (yearPath priceRamp) (yearPath priceFlat) = some none ∧
      1990 ∉ (filteredCorr (correlationsOf (yearPath priceRamp) cols10
        2026) 0).map Prod.fst := by
  have hr : (yearPath priceRamp).length = 30 := by with_unfolding_all rfl
  have hf : yearPath priceFlat = List.replicate 30 (0 : ℚ) := by
    with_unfolding_all rfl
  have hov : 30 ≤
      min (yearPath priceRamp).length (yearPath priceFlat).length := by
    rw [hr, hf]
    simp
  have hconst : ∀ a ∈ (yearPath priceFlat).take
      (min (yearPath priceRamp).length (yearPath priceFlat).length),
      a = 0 := by
    intro a ha
    have hm : a ∈ yearPath priceFlat := (List.take_sublist _ _).subset ha
    rw [hf] at hm
    exact List.eq_of_mem_replicate hm
  have h := claim10_constant_candidate_excluded (yearPath priceRamp) cols10
    2026 1990 (yearPath priceFlat) 0
    (List.mem_cons_of_mem _ (List.mem_cons_self _ _)) (by decide)
    (by decide) hov hconst
  exact ⟨h.1, h.2 0⟩

end YtdCorr
